import Mathlib

/-!
Verification of the Gaffer dependency-graph / scene / image specification.

The repository excerpt contains only the Python test suites
(`GafferSceneTest/DisplaysTest.py`, `GafferImageTest/ImageReaderTest.py`,
`GafferArnoldTest/InteractiveArnoldRenderTest.py`) and a UI screengrab
application; the core engine (plug graph, ValueCache, Context, the scene and
image data models, the `Displays` node and the `ImageReader` node) is not part
of the excerpt.  Every definition below is therefore modelled from the
specification text, kept faithful to its words and to the concrete behaviour
pinned down by the test files.
-/

/-! ## Contexts and cache keys (Graph/Plug Engine, spec section 4.1) -/

/-- Modelled from the spec: a Context is an immutable mapping from variable
name to typed value; two contexts are equal iff all entries compare equal.
Values are modelled as integers. -/
def Ctx : Type := List (String × Int)

/-- Modelled from the spec: looking an entry up in a Context. -/
def ctxLookup (c : Ctx) (n : String) : Option Int :=
  List.lookup n c

/-- Modelled from the spec: the hash of only the Context entries a node
declares as relevant to a plug ("context narrowing").  The hash is modelled
injectively as the list of (relevant name, entry value) pairs, in the fixed
order in which the node declares its relevant names. -/
def contextHash (rel : List String) (c : Ctx) : List (String × Option Int) :=
  rel.map fun n => (n, ctxLookup c n)

/-- Modelled from the spec: a ValueCache key is the identity of the plug
together with the narrowed context hash. -/
def cacheKey (pid : Nat) (rel : List String) (c : Ctx) :
    Nat × List (String × Option Int) :=
  (pid, contextHash rel c)

/-- A ValueCache, mapping keys to stored values. -/
def VCache : Type := List ((Nat × List (String × Option Int)) × Int)

/-- Modelled from the spec: ValueCache lookup by key. -/
def cacheFind (cache : VCache) (k : Nat × List (String × Option Int)) :
    Option Int :=
  List.lookup k cache

theorem contextHash_eq_of_agree (rel : List String) (c c' : Ctx)
    (h : ∀ n ∈ rel, ctxLookup c n = ctxLookup c' n) :
    contextHash rel c = contextHash rel c' := by
  unfold contextHash
  exact List.map_congr_left fun n hn => by rw [h n hn]

theorem contextHash_ne_of_relevant_ne (rel : List String) (c c' : Ctx)
    (n : String) (hn : n ∈ rel) (hne : ctxLookup c n ≠ ctxLookup c' n) :
    contextHash rel c ≠ contextHash rel c' := by
  intro heq
  apply hne
  induction rel with
  | nil => cases hn
  | cons m rest ih =>
      unfold contextHash at heq
      simp only [List.map_cons, List.cons.injEq] at heq
      rcases List.mem_cons.mp hn with h1 | h2
      · subst h1
        exact (Prod.mk.injEq _ _ _ _ ▸ heq.1).2
      · exact ih h2 heq.2

/-- C1: two contexts that agree on every entry the node declares relevant to
the plug produce the same cache key (hence the same ValueCache entry and equal
results), while two contexts that differ in an entry declared relevant never
produce the same cache key (they never share an entry). -/
theorem contextNarrowing (pid : Nat) (rel : List String) (c c' : Ctx) :
    ((∀ n ∈ rel, ctxLookup c n = ctxLookup c' n) →
       cacheKey pid rel c = cacheKey pid rel c' ∧
       ∀ cache : VCache,
         cacheFind cache (cacheKey pid rel c) =
           cacheFind cache (cacheKey pid rel c')) ∧
    (∀ n ∈ rel, ctxLookup c n ≠ ctxLookup c' n →
       cacheKey pid rel c ≠ cacheKey pid rel c') := by
  constructor
  · intro hagree
    have hk : cacheKey pid rel c = cacheKey pid rel c' := by
      unfold cacheKey
      rw [contextHash_eq_of_agree rel c c' hagree]
    exact ⟨hk, fun cache => by rw [hk]⟩
  · intro n hn hne heq
    have : contextHash rel c = contextHash rel c' := by
      unfold cacheKey at heq
      exact (Prod.mk.injEq _ _ _ _ ▸ heq).2
    exact contextHash_ne_of_relevant_ne rel c c' n hn hne this

/-- Witness for C1 at concrete inputs: contexts differing only in the
irrelevant entry "frame" share a key; contexts differing in the relevant
entry "path" do not. -/
theorem contextNarrowing_witness :
    (cacheKey 7 ["path"] [("path", 1), ("frame", 2)] =
       cacheKey 7 ["path"] [("path", 1), ("frame", 3)]) ∧
    (cacheKey 7 ["path"] [("path", 1), ("frame", 2)] ≠
       cacheKey 7 ["path"] [("path", 2), ("frame", 2)]) := by
  constructor
  · exact ((contextNarrowing 7 ["path"] [("path", 1), ("frame", 2)]
      [("path", 1), ("frame", 3)]).1 (by decide)).1
  · exact (contextNarrowing 7 ["path"] [("path", 1), ("frame", 2)]
      [("path", 2), ("frame", 2)]).2 "path" (by decide) (by decide)

/-! ## Demand-driven memoized evaluation (Graph/Plug Engine, spec section 4.1) -/

/-- Modelled from the spec: the node/plug dependency graph.  Plugs are
identified by natural numbers; `upstream p` lists the plugs whose values the
compute method of `p` pulls; `relevant p` is the list of Context entry names
the node declares relevant to `p`; `compute` produces the plug's value from
its upstream values and the Context.  Acyclicity of the connection graph is
recorded by a rank function that strictly decreases upstream. -/
structure EGraph where
  upstream : Nat → List Nat
  relevant : Nat → List String
  compute : Nat → List Int → Ctx → Int
  rank : Nat → Nat
  rank_lt : ∀ p q, q ∈ upstream p → rank q < rank p

/-- The ValueCache key used by the evaluator for plug `p` under context
`ctx`: the plug identity plus the narrowed context hash. -/
def EGraph.keyOf (g : EGraph) (p : Nat) (ctx : Ctx) :
    Nat × List (String × Option Int) :=
  cacheKey p (g.relevant p) ctx

mutual

/-- Modelled from the spec: `getValue(plug, context)` — demand-driven
evaluation through the ValueCache.  On a cache hit the stored value is
returned untouched; on a miss the upstream plugs are evaluated recursively
(threading the cache), the node's compute method runs once, and the result is
stored.  The returned list logs every plug whose compute method was invoked,
in invocation order; `fuel` bounds recursion depth. -/
def evalPlug (g : EGraph) :
    Nat → Nat → Ctx → VCache → Option (Int × VCache × List Nat)
  | 0, _, _, _ => none
  | fuel + 1, p, ctx, cache =>
    match cacheFind cache (g.keyOf p ctx) with
    | some v => some (v, cache, [])
    | none =>
      match evalList g fuel (g.upstream p) ctx cache with
      | none => none
      | some (vs, cache1, log) =>
        some (g.compute p vs ctx, (g.keyOf p ctx, g.compute p vs ctx) :: cache1,
          log ++ [p])

/-- Evaluates a list of plugs in order, threading the ValueCache. -/
def evalList (g : EGraph) :
    Nat → List Nat → Ctx → VCache → Option (List Int × VCache × List Nat)
  | _, [], _, cache => some ([], cache, [])
  | 0, _ :: _, _, _ => none
  | fuel + 1, q :: qs, ctx, cache =>
    match evalPlug g fuel q ctx cache with
    | none => none
    | some (v, cache1, log1) =>
      match evalList g fuel qs ctx cache1 with
      | none => none
      | some (vs, cache2, log2) => some (v :: vs, cache2, log1 ++ log2)

end

theorem evalPlug_cached (g : EGraph) (fuel p : Nat) (ctx : Ctx)
    (cache : VCache) (v : Int) (c : VCache) (log : List Nat)
    (h : evalPlug g fuel p ctx cache = some (v, c, log)) :
    cacheFind c (g.keyOf p ctx) = some v := by
  cases fuel with
  | zero => simp [evalPlug] at h
  | succ f =>
      rw [evalPlug] at h
      cases hl : cacheFind cache (g.keyOf p ctx) with
      | some w =>
          rw [hl] at h
          simp only [Option.some.injEq, Prod.mk.injEq] at h
          rw [← h.2.1, ← h.1, hl]
      | none =>
          rw [hl] at h
          cases hup : evalList g f (g.upstream p) ctx cache with
          | none => rw [hup] at h; simp at h
          | some out =>
              obtain ⟨vs, cache1, ulog⟩ := out
              rw [hup] at h
              simp only [Option.some.injEq, Prod.mk.injEq] at h
              rw [← h.2.1, ← h.1]
              unfold cacheFind
              simp [List.lookup]

theorem evalRankBound (g : EGraph) (fuel : Nat) :
    (∀ p ctx cache v c log, evalPlug g fuel p ctx cache = some (v, c, log) →
       ∀ r ∈ log, g.rank r ≤ g.rank p) ∧
    (∀ qs ctx cache vs c log, evalList g fuel qs ctx cache = some (vs, c, log) →
       ∀ r ∈ log, ∃ q ∈ qs, g.rank r ≤ g.rank q) := by
  induction fuel with
  | zero =>
      constructor
      · intro p ctx cache v c log h; simp [evalPlug] at h
      · intro qs ctx cache vs c log h r hr
        cases qs with
        | nil =>
            rw [evalList] at h
            simp only [Option.some.injEq, Prod.mk.injEq] at h
            rw [← h.2.2] at hr; cases hr
        | cons q qs => simp [evalList] at h
  | succ f ih =>
      constructor
      · intro p ctx cache v c log h r hr
        rw [evalPlug] at h
        cases hl : cacheFind cache (g.keyOf p ctx) with
        | some w =>
            rw [hl] at h
            simp only [Option.some.injEq, Prod.mk.injEq] at h
            rw [← h.2.2] at hr; cases hr
        | none =>
            rw [hl] at h
            cases hup : evalList g f (g.upstream p) ctx cache with
            | none => rw [hup] at h; simp at h
            | some out =>
                obtain ⟨vs, cache1, ulog⟩ := out
                rw [hup] at h
                simp only [Option.some.injEq, Prod.mk.injEq] at h
                rw [← h.2.2] at hr
                rcases List.mem_append.mp hr with hu | hp
                · obtain ⟨q, hq, hle⟩ := ih.2 _ _ _ _ _ _ hup r hu
                  exact le_of_lt (lt_of_le_of_lt hle (g.rank_lt p q hq))
                · rcases List.mem_singleton.mp hp with rfl
                  exact le_refl _
      · intro qs ctx cache vs c log h r hr
        cases qs with
        | nil =>
            rw [evalList] at h
            simp only [Option.some.injEq, Prod.mk.injEq] at h
            rw [← h.2.2] at hr; cases hr
        | cons q rest =>
            rw [evalList] at h
            cases h1 : evalPlug g f q ctx cache with
            | none => rw [h1] at h; simp at h
            | some out1 =>
                obtain ⟨v1, cache1, log1⟩ := out1
                rw [h1] at h
                dsimp only at h
                cases h2 : evalList g f rest ctx cache1 with
                | none => rw [h2] at h; simp at h
                | some out2 =>
                    obtain ⟨vs2, cache2, log2⟩ := out2
                    rw [h2] at h
                    simp only [Option.some.injEq, Prod.mk.injEq] at h
                    rw [← h.2.2] at hr
                    rcases List.mem_append.mp hr with hm | hm
                    · exact ⟨q, List.mem_cons_self q rest,
                        ih.1 _ _ _ _ _ _ h1 r hm⟩
                    · obtain ⟨q2, hq2, hle⟩ := ih.2 _ _ _ _ _ _ h2 r hm
                      exact ⟨q2, List.mem_cons_of_mem q hq2, hle⟩

theorem evalPlug_count_le_one (g : EGraph) (fuel p : Nat) (ctx : Ctx)
    (cache : VCache) (v : Int) (c : VCache) (log : List Nat)
    (h : evalPlug g fuel p ctx cache = some (v, c, log)) :
    log.count p ≤ 1 := by
  cases fuel with
  | zero => simp [evalPlug] at h
  | succ f =>
      rw [evalPlug] at h
      cases hl : cacheFind cache (g.keyOf p ctx) with
      | some w =>
          rw [hl] at h
          simp only [Option.some.injEq, Prod.mk.injEq] at h
          rw [← h.2.2]
          simp
      | none =>
          rw [hl] at h
          cases hup : evalList g f (g.upstream p) ctx cache with
          | none => rw [hup] at h; simp at h
          | some out =>
              obtain ⟨vs, cache1, ulog⟩ := out
              rw [hup] at h
              simp only [Option.some.injEq, Prod.mk.injEq] at h
              rw [← h.2.2]
              have hnot : p ∉ ulog := by
                intro hmem
                obtain ⟨q, hq, hle⟩ :=
                  (evalRankBound g f).2 _ _ _ _ _ _ hup p hmem
                exact absurd (lt_of_le_of_lt hle (g.rank_lt p q hq))
                  (lt_irrefl _)
              rw [List.count_append]
              rw [List.count_eq_zero.mpr hnot]
              simp

/-- C2: calling `getValue(plug, context)` twice with no intervening mutation
returns identical results and invokes the plug's compute method at most once
across the two calls: the first call computes the plug at most once, and the
second call is a ValueCache hit that performs no computes at all and leaves
the cache unchanged. -/
theorem getValueIdempotent (g : EGraph) (fuel fuel2 p : Nat) (ctx : Ctx)
    (v1 : Int) (c1 : VCache) (log1 : List Nat)
    (h : evalPlug g fuel p ctx [] = some (v1, c1, log1)) :
    evalPlug g (fuel2 + 1) p ctx c1 = some (v1, c1, []) ∧
      log1.count p ≤ 1 := by
  constructor
  · rw [evalPlug, evalPlug_cached g fuel p ctx [] v1 c1 log1 h]
  · exact evalPlug_count_le_one g fuel p ctx [] v1 c1 log1 h

/-- A one-plug graph with no upstream connections, used as a concrete
evaluation witness. -/
def egW : EGraph where
  upstream := fun _ => []
  relevant := fun _ => []
  compute := fun _ _ _ => 5
  rank := fun _ => 0
  rank_lt := fun _ q h => absurd h (List.not_mem_nil q)

/-- Witness for C2 on the concrete one-plug graph: the first evaluation
computes once and the second is a pure cache hit returning the same value. -/
theorem getValueIdempotent_witness :
    evalPlug egW 2 0 [] [((0, []), 5)] = some (5, [((0, []), 5)], []) ∧
      ([0] : List Nat).count 0 ≤ 1 :=
  getValueIdempotent egW 1 1 0 [] 5 [((0, []), 5)] [0] rfl

/-! ## Error taxonomy (spec section 7) -/

/-- Modelled from the spec: the error taxonomy of the core. -/
inductive GErr where
  | typeMismatch
  | cycleDetected
  | plugIsConnected
  | pathNotFound
  | invalidTileOrigin
  | sourceUnavailable
  | editRejected
deriving DecidableEq

/-! ## Plug connections and `setInput` (spec sections 4.1 and 9) -/

/-- Modelled from the spec: the connection structure of the plug graph.
`numPlugs` bounds the plug identifiers in use, `ptype` lists each plug's type
tag, and `conns` records, as (destination, source) pairs, which plug each
connected plug takes its input from (a plug has at most one input; lookup
takes the first entry). -/
structure PGraph where
  numPlugs : Nat
  ptype : List Nat
  conns : List (Nat × Nat)

/-- The type tag of a plug. -/
def typeOf (g : PGraph) (p : Nat) : Nat := g.ptype.getD p 0

/-- The input (upstream source) of a plug, when connected. -/
def inputOf (g : PGraph) (p : Nat) : Option Nat := List.lookup p g.conns

/-- Following the chain of inputs `k` steps up from a plug. -/
def upIter (g : PGraph) : Nat → Nat → Option Nat
  | 0, p => some p
  | k + 1, p => (inputOf g p).bind (upIter g k)

/-- Modelled from the spec: the connection-time cycle check — a depth-first
walk up the single-input chain from `s`, with fuel, looking for `p`. -/
def chainMem (g : PGraph) : Nat → Nat → Nat → Bool
  | 0, s, p => s == p
  | k + 1, s, p =>
    s == p ||
      (match inputOf g s with
       | none => false
       | some q => chainMem g k q p)

/-- The connection graph is acyclic: no plug is transitively upstream of
itself. -/
def Acyclic (g : PGraph) : Prop := ∀ p k, upIter g (k + 1) p ≠ some p

/-- All recorded connections join plugs with identifiers in range. -/
def WFGraph (g : PGraph) : Prop :=
  ∀ pr ∈ g.conns, pr.1 < g.numPlugs ∧ pr.2 < g.numPlugs

/-- Recording the connection `p.input = s`, replacing any previous input. -/
def connect (g : PGraph) (p s : Nat) : PGraph :=
  { g with conns := (p, s) :: g.conns.filter (fun pr => pr.1 != p) }

/-- Modelled from the spec: `setInput(plug, sourcePlug)` — rejects the
connection with `TypeMismatch` when the plug types are incompatible and with
`CycleDetected` when the connection would close a cycle, returning the graph
untouched in both cases; otherwise records the connection. -/
def setInput (g : PGraph) (p s : Nat) : PGraph × Option GErr :=
  if typeOf g p ≠ typeOf g s then (g, some GErr.typeMismatch)
  else if chainMem g g.numPlugs s p then (g, some GErr.cycleDetected)
  else (connect g p s, none)

theorem lookup_mem_of_eq_some {l : List (Nat × Nat)} {a b : Nat}
    (h : List.lookup a l = some b) : (a, b) ∈ l := by
  induction l with
  | nil => simp [List.lookup] at h
  | cons pr rest ih =>
      obtain ⟨k, v⟩ := pr
      rw [List.lookup] at h
      by_cases hk : a = k
      · subst hk
        simp only [beq_self_eq_true] at h
        simp only [Option.some.injEq] at h
        subst h
        exact List.mem_cons_self _ _
      · have : (a == k) = false := beq_false_of_ne hk
        rw [this] at h
        exact List.mem_cons_of_mem _ (ih h)

theorem upIter_add (g : PGraph) (a b s : Nat) :
    upIter g (a + b) s = (upIter g a s).bind (upIter g b) := by
  induction a generalizing s with
  | zero => simp [upIter]
  | succ a ih =>
      have hab : a + 1 + b = (a + b) + 1 := by omega
      rw [hab, upIter, upIter]
      cases hin : inputOf g s with
      | none => simp
      | some q => simp [ih q]

theorem upIter_prefix (g : PGraph) {k s p : Nat} (i : Nat) (hik : i ≤ k)
    (h : upIter g k s = some p) : ∃ m, upIter g i s = some m := by
  have hk : k = i + (k - i) := by omega
  rw [hk, upIter_add] at h
  cases hm : upIter g i s with
  | none => rw [hm] at h; simp at h
  | some m => exact ⟨m, rfl⟩

theorem upIter_lt (g : PGraph) (hwf : WFGraph g) :
    ∀ k s m, s < g.numPlugs → upIter g k s = some m → m < g.numPlugs := by
  intro k
  induction k with
  | zero =>
      intro s m hs h
      rw [upIter] at h
      simp only [Option.some.injEq] at h
      rwa [← h]
  | succ k ih =>
      intro s m hs h
      rw [upIter] at h
      cases hin : inputOf g s with
      | none => rw [hin] at h; simp at h
      | some q =>
          rw [hin] at h
          simp only [Option.some_bind] at h
          exact ih q m (hwf (s, q) (lookup_mem_of_eq_some hin)).2 h

theorem reach_imp_le (g : PGraph) (hwf : WFGraph g) (hac : Acyclic g)
    {k s p : Nat} (hs : s < g.numPlugs) (h : upIter g k s = some p) :
    k ≤ g.numPlugs := by
  by_contra hk
  push_neg at hk
  set n := g.numPlugs with hn
  have hmi : ∀ i : Nat, i ≤ n → ∃ m, upIter g i s = some m ∧ m < n := by
    intro i hi
    obtain ⟨m, hm⟩ := upIter_prefix g i (le_of_lt (lt_of_le_of_lt hi hk)) h
    exact ⟨m, hm, upIter_lt g hwf i s m hs hm⟩
  have hbound : ∀ i : Fin (n + 1), (upIter g i.1 s).getD 0 < n := by
    intro i
    obtain ⟨m, hm, hb⟩ := hmi i.1 (Nat.le_of_lt_succ i.2)
    rw [hm]
    exact hb
  obtain ⟨i, j, hne, heq⟩ :=
    Fintype.exists_ne_map_eq_of_card_lt
      (fun i : Fin (n + 1) => (⟨(upIter g i.1 s).getD 0, hbound i⟩ : Fin n))
      (by simp)
  have key : ∀ i j : Fin (n + 1), i.1 < j.1 →
      (upIter g i.1 s).getD 0 = (upIter g j.1 s).getD 0 → False := by
    intro i j hij hvals
    obtain ⟨mi, hmi1, _⟩ := hmi i.1 (Nat.le_of_lt_succ i.2)
    obtain ⟨mj, hmj1, _⟩ := hmi j.1 (Nat.le_of_lt_succ j.2)
    rw [hmi1, hmj1] at hvals
    simp only [Option.getD_some] at hvals
    have hsplit : upIter g j.1 s = (upIter g i.1 s).bind (upIter g (j.1 - i.1)) := by
      have : j.1 = i.1 + (j.1 - i.1) := by omega
      rw [← upIter_add]
      rw [← this]
    rw [hmj1, hmi1] at hsplit
    simp only [Option.some_bind] at hsplit
    have hcyc : upIter g (j.1 - i.1) mi = some mi := by
      rw [← hsplit, hvals]
    have hexp : j.1 - i.1 - 1 + 1 = j.1 - i.1 := by omega
    exact hac mi (j.1 - i.1 - 1) (by rw [hexp]; exact hcyc)
  have hvals : (upIter g i.1 s).getD 0 = (upIter g j.1 s).getD 0 := by
    have := congrArg Fin.val heq
    simpa using this
  rcases lt_trichotomy i.1 j.1 with hlt | heqv | hgt
  · exact key i j hlt hvals
  · exact hne (Fin.ext heqv)
  · exact key j i hgt hvals.symm

theorem chainMem_iff (g : PGraph) :
    ∀ f s p, chainMem g f s p = true ↔
      ∃ k, k ≤ f ∧ upIter g k s = some p := by
  intro f
  induction f with
  | zero =>
      intro s p
      rw [chainMem]
      constructor
      · intro h
        exact ⟨0, le_refl 0, by rw [upIter]; exact congrArg some (beq_iff_eq.mp h)⟩
      · rintro ⟨k, hk, hup⟩
        interval_cases k
        rw [upIter] at hup
        simp only [Option.some.injEq] at hup
        exact beq_iff_eq.mpr hup
  | succ f ih =>
      intro s p
      rw [chainMem]
      cases hin : inputOf g s with
      | none =>
          simp only [Bool.or_false]
          constructor
          · intro h
            exact ⟨0, Nat.zero_le _, by rw [upIter]; exact congrArg some (beq_iff_eq.mp h)⟩
          · rintro ⟨k, hk, hup⟩
            cases k with
            | zero =>
                rw [upIter] at hup
                simp only [Option.some.injEq] at hup
                exact beq_iff_eq.mpr hup
            | succ k =>
                rw [upIter, hin] at hup
                simp at hup
      | some q =>
          rw [Bool.or_eq_true, beq_iff_eq, ih q p]
          constructor
          · rintro (rfl | ⟨k, hk, hup⟩)
            · exact ⟨0, Nat.zero_le _, by rw [upIter]⟩
            · exact ⟨k + 1, Nat.succ_le_succ hk,
                by rw [upIter, hin, Option.some_bind]; exact hup⟩
          · rintro ⟨k, hk, hup⟩
            cases k with
            | zero =>
                rw [upIter] at hup
                simp only [Option.some.injEq] at hup
                exact Or.inl hup
            | succ k =>
                rw [upIter, hin, Option.some_bind] at hup
                exact Or.inr ⟨k, Nat.le_of_succ_le_succ hk, hup⟩

theorem lookup_filter_ne {l : List (Nat × Nat)} {q p : Nat} (hqp : q ≠ p) :
    List.lookup q (l.filter (fun pr => pr.1 != p)) = List.lookup q l := by
  induction l with
  | nil => rfl
  | cons pr rest ih =>
      obtain ⟨a, b⟩ := pr
      by_cases hap : a = p
      · subst hap
        rw [List.filter_cons_of_neg (by simp)]
        rw [ih, List.lookup]
        have : (q == a) = false := beq_false_of_ne hqp
        rw [this]
      · rw [List.filter_cons_of_pos (by simpa using hap)]
        rw [List.lookup, List.lookup]
        cases hqa : q == a with
        | true => rfl
        | false => exact ih

theorem inputOf_connect (g : PGraph) (p s q : Nat) :
    inputOf (connect g p s) q = if q = p then some s else inputOf g q := by
  unfold inputOf connect
  by_cases hqp : q = p
  · subst hqp
    simp [List.lookup]
  · rw [if_neg hqp]
    rw [List.lookup]
    have : (q == p) = false := beq_false_of_ne hqp
    rw [this]
    exact lookup_filter_ne hqp

theorem upIter_connect_to_base (g : PGraph) (p s : Nat) :
    ∀ k q w, (∀ i, i < k → ∀ r, upIter (connect g p s) i q = some r → r ≠ p) →
      upIter (connect g p s) k q = some w → upIter g k q = some w := by
  intro k
  induction k with
  | zero => intro q w _ h; exact h
  | succ k ih =>
      intro q w havoid h
      have hqp : q ≠ p := by
        have := havoid 0 (Nat.succ_pos k) q (by rw [upIter])
        exact this
      rw [upIter] at h
      rw [inputOf_connect, if_neg hqp] at h
      rw [upIter]
      cases hin : inputOf g q with
      | none => rw [hin] at h; simp at h
      | some m =>
          rw [hin] at h
          rw [Option.some_bind] at h ⊢
          apply ih m w _ h
          intro i hi r hr
          apply havoid (i + 1) (Nat.succ_lt_succ hi) r
          rw [upIter, inputOf_connect, if_neg hqp, hin, Option.some_bind]
          exact hr

theorem upIter_base_to_connect (g : PGraph) (p s : Nat) :
    ∀ k q w, (∀ i, i < k → ∀ r, upIter g i q = some r → r ≠ p) →
      upIter g k q = some w → upIter (connect g p s) k q = some w := by
  intro k
  induction k with
  | zero => intro q w _ h; exact h
  | succ k ih =>
      intro q w havoid h
      have hqp : q ≠ p := by
        have := havoid 0 (Nat.succ_pos k) q (by rw [upIter])
        exact this
      rw [upIter] at h
      rw [upIter, inputOf_connect, if_neg hqp]
      cases hin : inputOf g q with
      | none => rw [hin] at h; simp at h
      | some m =>
          rw [hin] at h
          rw [Option.some_bind] at h ⊢
          apply ih m w _ h
          intro i hi r hr
          apply havoid (i + 1) (Nat.succ_lt_succ hi) r
          rw [upIter, hin, Option.some_bind]
          exact hr

theorem acyclic_connect_of_not_reach (g : PGraph) (p s : Nat)
    (hac : Acyclic g) (hnr : ∀ k, upIter g k s ≠ some p) :
    Acyclic (connect g p s) := by
  intro q m hcyc
  by_cases htouch : ∃ i, i ≤ m + 1 ∧ upIter (connect g p s) i q = some p
  · obtain ⟨i, hi, hip⟩ := htouch
    have hrot : upIter (connect g p s) (m + 1) p = some p := by
      have hsplit1 : upIter (connect g p s) (m + 1) q =
          (upIter (connect g p s) i q).bind (upIter (connect g p s) (m + 1 - i)) := by
        have : m + 1 = i + (m + 1 - i) := by omega
        rw [← upIter_add, ← this]
      rw [hcyc, hip, Option.some_bind] at hsplit1
      have hsplit2 : upIter (connect g p s) ((m + 1 - i) + i) p =
          (upIter (connect g p s) (m + 1 - i) p).bind (upIter (connect g p s) i) := by
        rw [← upIter_add]
      rw [← hsplit1, Option.some_bind, hip] at hsplit2
      have heq2 : (m + 1 - i) + i = m + 1 := by omega
      rw [heq2] at hsplit2
      exact hsplit2
    have hstep : upIter (connect g p s) m s = some p := by
      rw [upIter, inputOf_connect, if_pos rfl, Option.some_bind] at hrot
      exact hrot
    have hex : ∃ t, upIter (connect g p s) t s = some p := ⟨m, hstep⟩
    have hmin := Nat.find_spec hex
    have hbase : upIter g (Nat.find hex) s = some p := by
      apply upIter_connect_to_base g p s (Nat.find hex) s p _ hmin
      intro i hi r hr hrp
      subst hrp
      exact absurd hr (Nat.find_min hex hi)
    exact hnr (Nat.find hex) hbase
  · push_neg at htouch
    have hbase : upIter g (m + 1) q = some q := by
      apply upIter_connect_to_base g p s (m + 1) q q _ hcyc
      intro i hi r hr hrp
      subst hrp
      exact absurd hr (htouch i (le_of_lt hi))
    exact hac q m hbase

theorem not_acyclic_connect_of_reach (g : PGraph) (p s k : Nat)
    (h : upIter g k s = some p) : ¬ Acyclic (connect g p s) := by
  intro hac
  have hex : ∃ t, upIter g t s = some p := ⟨k, h⟩
  have hmin := Nat.find_spec hex
  have hconn : upIter (connect g p s) (Nat.find hex) s = some p := by
    apply upIter_base_to_connect g p s (Nat.find hex) s p _ hmin
    intro i hi r hr hrp
    subst hrp
    exact absurd hr (Nat.find_min hex hi)
  have : upIter (connect g p s) (Nat.find hex + 1) p = some p := by
    rw [upIter, inputOf_connect, if_pos rfl, Option.some_bind]
    exact hconn
  exact hac p (Nat.find hex) this

/-- C5: under the graph invariants, `setInput` fails with `TypeMismatch` on
incompatible plug types and fails with `CycleDetected` exactly when the
connection would close a cycle; every failure returns the connection graph
exactly as it was, and after any call the graph is still acyclic and
well-formed (so the connection graph stays acyclic after every sequence of
operations). -/
theorem setInputSafety (g : PGraph) (p s : Nat)
    (hwf : WFGraph g) (hac : Acyclic g)
    (hp : p < g.numPlugs) (hs : s < g.numPlugs) :
    (∀ e, (setInput g p s).2 = some e → (setInput g p s).1 = g) ∧
    (typeOf g p ≠ typeOf g s → setInput g p s = (g, some GErr.typeMismatch)) ∧
    (typeOf g p = typeOf g s →
       (¬ Acyclic (connect g p s) ↔
          setInput g p s = (g, some GErr.cycleDetected))) ∧
    Acyclic (setInput g p s).1 ∧ WFGraph (setInput g p s).1 := by
  have hreach_iff : chainMem g g.numPlugs s p = true ↔
      ∃ k, upIter g k s = some p := by
    rw [chainMem_iff]
    constructor
    · rintro ⟨k, _, hk⟩; exact ⟨k, hk⟩
    · rintro ⟨k, hk⟩
      exact ⟨k, reach_imp_le g hwf hac hs hk, hk⟩
  have hcyc_iff : ¬ Acyclic (connect g p s) ↔ ∃ k, upIter g k s = some p := by
    constructor
    · intro hnac
      by_contra hnr
      push_neg at hnr
      exact hnac (acyclic_connect_of_not_reach g p s hac hnr)
    · rintro ⟨k, hk⟩
      exact not_acyclic_connect_of_reach g p s k hk
  by_cases ht : typeOf g p = typeOf g s
  · by_cases hcm : chainMem g g.numPlugs s p = true
    · have hsi : setInput g p s = (g, some GErr.cycleDetected) := by
        unfold setInput
        rw [if_neg (fun hne => hne ht), if_pos hcm]
      refine ⟨?_, ?_, ?_, ?_, ?_⟩
      · intro e _; rw [hsi]
      · intro hne; exact absurd ht hne
      · intro _
        constructor
        · intro _; exact hsi
        · intro _
          exact hcyc_iff.mpr (hreach_iff.mp hcm)
      · rw [hsi]; exact hac
      · rw [hsi]; exact hwf
    · have hsi : setInput g p s = (connect g p s, none) := by
        unfold setInput
        rw [if_neg (fun hne => hne ht), if_neg hcm]
      have hacon : Acyclic (connect g p s) := by
        by_contra hnac
        exact hcm (hreach_iff.mpr (hcyc_iff.mp hnac))
      refine ⟨?_, ?_, ?_, ?_, ?_⟩
      · intro e he
        rw [hsi] at he
        simp at he
      · intro hne; exact absurd ht hne
      · intro _
        constructor
        · intro hnac; exact absurd hacon hnac
        · intro heq
          rw [hsi] at heq
          have := congrArg Prod.snd heq
          simp at this
      · rw [hsi]; exact hacon
      · rw [hsi]
        intro pr hpr
        rcases List.mem_cons.mp hpr with rfl | hmem
        · exact ⟨hp, hs⟩
        · exact hwf pr (List.mem_of_mem_filter hmem)
  · have hsi : setInput g p s = (g, some GErr.typeMismatch) := by
      unfold setInput
      rw [if_pos ht]
    refine ⟨?_, ?_, ?_, ?_, ?_⟩
    · intro e _; rw [hsi]
    · intro _; exact hsi
    · intro heq; exact absurd heq ht
    · rw [hsi]; exact hac
    · rw [hsi]; exact hwf

/-- A two-plug graph with no connections, used as a concrete `setInput`
witness. -/
def pgW : PGraph where
  numPlugs := 2
  ptype := [0, 0]
  conns := []

theorem pgW_wf : WFGraph pgW := by
  intro pr hpr
  simp [pgW] at hpr

theorem pgW_acyclic : Acyclic pgW := by
  intro q k h
  rw [upIter] at h
  simp [inputOf, pgW] at h

/-- Witness for C5 on the concrete two-plug graph: connecting plug 0 to
plug 1 succeeds and the resulting graph is acyclic and well-formed. -/
theorem setInputSafety_witness :
    Acyclic (setInput pgW 0 1).1 ∧ WFGraph (setInput pgW 0 1).1 :=
  (setInputSafety pgW 0 1 pgW_wf pgW_acyclic (by decide) (by decide)).2.2.2

/-! ## Tiled image data model (spec section 4.3) -/

/-- Modelled from the spec: the tile size, a fixed power-of-two constant for
a given image plug. -/
def tileSize : Nat := 64

/-- Number of samples in one square tile. -/
def tilePixels : Nat := tileSize * tileSize

/-- An axis-aligned integer rectangle (data / display window). -/
structure Box2i where
  minX : Int
  minY : Int
  maxX : Int
  maxY : Int
deriving DecidableEq

/-- Whether a pixel coordinate lies inside a window. -/
def inWindow (w : Box2i) (q : Int × Int) : Bool :=
  decide (w.minX ≤ q.1 ∧ q.1 ≤ w.maxX ∧ w.minY ≤ q.2 ∧ q.2 ≤ w.maxY)

/-- Modelled from the spec: a persisted image file as seen through the
external codec capability — its metadata (data window, display window,
channel names) and, per channel, the decoded sample at each pixel.  Samples
are modelled as integers (the stored bit pattern), so sample equality is
bit-for-bit equality. -/
structure ImageFile where
  dataWindow : Box2i
  displayWindow : Box2i
  channelNames : List String
  pix : String → Int × Int → Int

/-- Decoding the file directly with the external codec: the sample of a
channel at a pixel. -/
def codecSample (img : ImageFile) (ch : String) (q : Int × Int) : Int :=
  img.pix ch q

/-- Modelled from the spec: `channelData(channelName, tileOrigin)` — the flat
array of tileSize² samples of one tile, row-major; pixels outside the data
window read as zero. -/
def channelData (img : ImageFile) (ch : String) (t : Int × Int) : List Int :=
  (List.range tilePixels).map fun i =>
    if inWindow img.dataWindow
        (t.1 + ((i % tileSize : Nat) : Int), t.2 + ((i / tileSize : Nat) : Int))
    then img.pix ch (t.1 + ((i % tileSize : Nat) : Int), t.2 + ((i / tileSize : Nat) : Int))
    else 0

/-- The origin of the tile containing a pixel. -/
def tileOriginOf (q : Int × Int) : Int × Int :=
  ((tileSize : Int) * (q.1 / (tileSize : Int)),
   (tileSize : Int) * (q.2 / (tileSize : Int)))

/-- The flat index of a pixel inside its tile. -/
def tileIndexOf (q : Int × Int) : Nat :=
  (q.1 % (tileSize : Int)).toNat + tileSize * (q.2 % (tileSize : Int)).toNat

/-- Modelled from the spec: reading the assembled image through the image
data model — the sample at a pixel, read from the tile containing it. -/
def imageSample (img : ImageFile) (ch : String) (q : Int × Int) : Int :=
  (channelData img ch (tileOriginOf q)).getD (tileIndexOf q) 0

theorem getD_map_range {α : Type} (n i : Nat) (f : Nat → α) (d : α)
    (h : i < n) : ((List.range n).map f).getD i d = f i := by
  rw [List.getD_eq_getElem?_getD, List.getElem?_map, List.getElem?_range h]
  rfl

theorem tileIndexOf_lt (q : Int × Int) : tileIndexOf q < tilePixels := by
  unfold tileIndexOf tilePixels tileSize
  have h1 : (0 : Int) ≤ q.1 % 64 := Int.emod_nonneg q.1 (by norm_num)
  have h2 : q.1 % 64 < 64 := Int.emod_lt_of_pos q.1 (by norm_num)
  have h3 : (0 : Int) ≤ q.2 % 64 := Int.emod_nonneg q.2 (by norm_num)
  have h4 : q.2 % 64 < 64 := Int.emod_lt_of_pos q.2 (by norm_num)
  omega

/-- C4: for every persisted image file, every channel and every pixel inside
the data window, reading through the image data model (channelData assembled
into the image output) yields the sample bit-for-bit equal to decoding the
file directly with the external codec. -/
theorem imageRoundTrip (img : ImageFile) (ch : String) (q : Int × Int)
    (h : inWindow img.dataWindow q = true) :
    imageSample img ch q = codecSample img ch q := by
  obtain ⟨x, y⟩ := q
  unfold imageSample channelData
  rw [getD_map_range _ _ _ _ (tileIndexOf_lt (x, y))]
  have hxn : (0 : Int) ≤ x % 64 := Int.emod_nonneg x (by norm_num)
  have hxl : x % 64 < 64 := Int.emod_lt_of_pos x (by norm_num)
  have hyn : (0 : Int) ≤ y % 64 := Int.emod_nonneg y (by norm_num)
  have hyl : y % 64 < 64 := Int.emod_lt_of_pos y (by norm_num)
  have hxe : (64 : Int) * (x / 64) + x % 64 = x := Int.ediv_add_emod x 64
  have hye : (64 : Int) * (y / 64) + y % 64 = y := Int.ediv_add_emod y 64
  have hco : ((tileOriginOf (x, y)).1 + ((tileIndexOf (x, y) % tileSize : Nat) : Int),
      (tileOriginOf (x, y)).2 + ((tileIndexOf (x, y) / tileSize : Nat) : Int)) =
      (x, y) := by
    unfold tileOriginOf tileIndexOf tileSize
    rw [Prod.mk.injEq]
    constructor
    · omega
    · omega
  rw [hco, if_pos h]
  rfl

/-- A concrete synthetic 200x150 four-channel image file, used as a
round-trip witness (the checker image of the reader test). -/
def imgW : ImageFile where
  dataWindow := ⟨0, 0, 199, 149⟩
  displayWindow := ⟨0, 0, 199, 149⟩
  channelNames := ["R", "G", "B", "A"]
  pix := fun _ q => q.1 + 200 * q.2

/-- Witness for C4: on the concrete image, the assembled sample at pixel
(70, 80) equals the directly decoded codec sample. -/
theorem imageRoundTrip_witness :
    imageSample imgW "R" (70, 80) = codecSample imgW "R" (70, 80) :=
  imageRoundTrip imgW "R" (70, 80) (by decide)

/-- C8: `channelData` always returns a flat array of exactly tileSize²
samples, and the tile size is a fixed power-of-two constant. -/
theorem tileSizeSquared (img : ImageFile) (ch : String) (t : Int × Int) :
    (channelData img ch t).length = tileSize ^ 2 ∧ ∃ k, tileSize = 2 ^ k := by
  constructor
  · unfold channelData tilePixels
    rw [List.length_map, List.length_range, pow_two]
  · exact ⟨6, by norm_num [tileSize]⟩

/-! ## Compute-time errors and the cache (spec sections 4.3 and 7) -/

/-- The mutable evaluation state of the engine: the ValueCache contents for
image tiles, and the set of plugs currently marked dirty. -/
structure EvalState where
  cache : List ((String × Int × Int) × List Int)
  dirty : List Nat
deriving DecidableEq

/-- Modelled from the spec: the fallible `channelData` entry point.
`channelData` must only be called with a tile origin that is an exact
multiple of the tile size; a violating call fails with `InvalidTileOrigin`
before touching the cache or dirty state, and the error is propagated, never
stored.  An aligned call computes the tile and stores it in the cache. -/
def channelDataChecked (img : ImageFile) (ch : String) (t : Int × Int)
    (st : EvalState) : Except GErr (List Int) × EvalState :=
  if t.1 % (tileSize : Int) = 0 ∧ t.2 % (tileSize : Int) = 0 then
    (Except.ok (channelData img ch t),
     ⟨((ch, t), channelData img ch t) :: st.cache, st.dirty⟩)
  else
    (Except.error GErr.invalidTileOrigin, st)

/-- C6: calling `channelData` with a tile origin that is not an exact
multiple of the tile size fails with `InvalidTileOrigin`, and the failed call
leaves the ValueCache contents and the dirty state exactly as they were: the
error propagates to the caller and is never stored in the cache. -/
theorem invalidTileOriginSafe (img : ImageFile) (ch : String) (t : Int × Int)
    (st : EvalState)
    (h : ¬ (t.1 % (tileSize : Int) = 0 ∧ t.2 % (tileSize : Int) = 0)) :
    (channelDataChecked img ch t st).1 = Except.error GErr.invalidTileOrigin ∧
    (channelDataChecked img ch t st).2.cache = st.cache ∧
    (channelDataChecked img ch t st).2.dirty = st.dirty := by
  unfold channelDataChecked
  rw [if_neg h]
  exact ⟨rfl, rfl, rfl⟩

/-- Witness for C6: requesting channel data at the misaligned tile origin
(1, 0) on the concrete image fails with `InvalidTileOrigin` and leaves the
empty state untouched. -/
theorem invalidTileOriginSafe_witness :
    (channelDataChecked imgW "R" (1, 0) ⟨[], []⟩).1 =
        Except.error GErr.invalidTileOrigin ∧
    (channelDataChecked imgW "R" (1, 0) ⟨[], []⟩).2.cache = [] ∧
    (channelDataChecked imgW "R" (1, 0) ⟨[], []⟩).2.dirty = [] :=
  invalidTileOriginSafe imgW "R" (1, 0) ⟨[], []⟩ (by decide)

/-! ## Hierarchical scene data model (spec sections 3 and 4.2) -/

/-- A 3D point over the rationals. -/
abbrev V3 : Type := Rat × Rat × Rat

/-- Componentwise minimum of two points. -/
def vmin (a b : V3) : V3 := (min a.1 b.1, min a.2.1 b.2.1, min a.2.2 b.2.2)

/-- Componentwise maximum of two points. -/
def vmax (a b : V3) : V3 := (max a.1 b.1, max a.2.1 b.2.1, max a.2.2 b.2.2)

/-- Componentwise order on points. -/
def vle (a b : V3) : Prop := a.1 ≤ b.1 ∧ a.2.1 ≤ b.2.1 ∧ a.2.2 ≤ b.2.2

/-- An axis-aligned bounding box. -/
structure Box3 where
  minP : V3
  maxP : V3
deriving DecidableEq

/-- Box union: the smallest box containing both arguments. -/
def boxUnion (a b : Box3) : Box3 := ⟨vmin a.minP b.minP, vmax a.maxP b.maxP⟩

/-- Union of possibly-empty bounds (`none` is the empty bound). -/
def unionO : Option Box3 → Option Box3 → Option Box3
  | none, y => y
  | some a, none => some a
  | some a, some b => some (boxUnion a b)

/-- Enclosure of possibly-empty bounds: the empty bound is enclosed by
everything; a nonempty bound is enclosed only by a nonempty enclosing box. -/
def beleq : Option Box3 → Option Box3 → Prop
  | none, _ => True
  | some _, none => False
  | some a, some b => vle b.minP a.minP ∧ vle a.maxP b.maxP

/-- Modelled from the spec: a 4x4 transform (local to parent), kept as its
three linear rows and a translation. -/
structure Xform where
  rx : V3
  ry : V3
  rz : V3
  tr : V3
deriving DecidableEq

/-- Applying a transform to a point. -/
def xapply (t : Xform) (p : V3) : V3 :=
  (t.rx.1 * p.1 + t.rx.2.1 * p.2.1 + t.rx.2.2 * p.2.2 + t.tr.1,
   t.ry.1 * p.1 + t.ry.2.1 * p.2.1 + t.ry.2.2 * p.2.2 + t.tr.2.1,
   t.rz.1 * p.1 + t.rz.2.1 * p.2.1 + t.rz.2.2 * p.2.2 + t.tr.2.2)

/-- The eight corners of a box. -/
def corners (b : Box3) : List V3 :=
  [(b.minP.1, b.minP.2.1, b.minP.2.2), (b.minP.1, b.minP.2.1, b.maxP.2.2),
   (b.minP.1, b.maxP.2.1, b.minP.2.2), (b.minP.1, b.maxP.2.1, b.maxP.2.2),
   (b.maxP.1, b.minP.2.1, b.minP.2.2), (b.maxP.1, b.minP.2.1, b.maxP.2.2),
   (b.maxP.1, b.maxP.2.1, b.minP.2.2), (b.maxP.1, b.maxP.2.1, b.maxP.2.2)]

/-- The bounding box of a nonempty set of points. -/
def boxOfPoints (p : V3) (ps : List V3) : Box3 :=
  ps.foldl (fun bx q => ⟨vmin bx.minP q, vmax bx.maxP q⟩) ⟨p, p⟩

/-- Transforming a box: the bounding box of its transformed corners. -/
def xformBox (t : Xform) (b : Box3) : Box3 :=
  boxOfPoints (xapply t b.minP) ((corners b).map (xapply t))

/-- Transforming a possibly-empty bound. -/
def xformBoxO (t : Xform) : Option Box3 → Option Box3
  | none => none
  | some b => some (xformBox t b)

/-- The identity transform. -/
def idXform : Xform := ⟨(1, 0, 0), (0, 1, 0), (0, 0, 1), (0, 0, 0)⟩

/-- A geometric payload: its kind tag and its local-space bound. -/
structure GObj where
  kind : String
  bnd : Box3
deriving DecidableEq

/-- Modelled from the spec: a scene location — its name, its transform
(local to parent), its optional geometric payload, and its ordered children
(insertion order is traversal order). -/
inductive Loc where
  | mk (nm : String) (xf : Xform) (obj : Option GObj) (children : List Loc)

/-- The name of a location. -/
def Loc.nameOf : Loc → String
  | .mk n _ _ _ => n

/-- The transform of a location. -/
def Loc.xfOf : Loc → Xform
  | .mk _ t _ _ => t

/-- The geometric payload of a location, `none` when it has none. -/
def Loc.objOf : Loc → Option GObj
  | .mk _ _ o _ => o

/-- The ordered children of a location. -/
def Loc.childrenOf : Loc → List Loc
  | .mk _ _ _ c => c

/-- The bound of a location's own payload. -/
def objectBound (l : Loc) : Option Box3 := (Loc.objOf l).map GObj.bnd

/-- Modelled from the spec: the computed `bound` of a location — the union of
its object's bound and each child's bound transformed by that child's
transform into the parent's local space. -/
def boundOf : Loc → Option Box3
  | .mk _ _ obj children =>
    (children.attach.map fun c => xformBoxO (Loc.xfOf c.1) (boundOf c.1)).foldr
      unionO (obj.map GObj.bnd)
decreasing_by
  have := List.sizeOf_lt_of_mem c.2
  simp only [Loc.mk.sizeOf_spec]
  omega

/-- Resolving a slash-separated scene path: each path segment selects the
child of that name. -/
def locate : Loc → List String → Option Loc
  | l, [] => some l
  | l, n :: rest =>
    match (Loc.childrenOf l).find? (fun c => Loc.nameOf c == n) with
    | none => none
    | some c => locate c rest

/-- The object(path) query: the payload at a path, `none` inside when absent. -/
def objectAt (root : Loc) (path : List String) : Option (Option GObj) :=
  (locate root path).map Loc.objOf

/-- The childNames(path) query: the ordered child names at a path; a leaf returns
`none` inside, never an empty list. -/
def childNamesAt (root : Loc) (path : List String) :
    Option (Option (List String)) :=
  (locate root path).map fun l =>
    if (Loc.childrenOf l).isEmpty then none
    else some ((Loc.childrenOf l).map Loc.nameOf)

/-- The bound(path) query: the computed bound at a path. -/
def boundAt (root : Loc) (path : List String) : Option (Option Box3) :=
  (locate root path).map boundOf

/-- The transform(path) query: the transform at a path. -/
def transformAt (root : Loc) (path : List String) : Option Xform :=
  (locate root path).map Loc.xfOf

theorem vle_refl (a : V3) : vle a a := ⟨le_refl _, le_refl _, le_refl _⟩

theorem beleq_refl (a : Option Box3) : beleq a a := by
  cases a with
  | none => trivial
  | some b => exact ⟨vle_refl _, vle_refl _⟩

theorem beleq_unionO_left (a b : Option Box3) : beleq a (unionO a b) := by
  cases a with
  | none => trivial
  | some av =>
      cases b with
      | none => exact beleq_refl _
      | some bv =>
          refine ⟨⟨?_, ?_, ?_⟩, ⟨?_, ?_, ?_⟩⟩ <;>
            simp [boxUnion, vmin, vmax]

theorem beleq_unionO_mono (a b c : Option Box3) (h : beleq a c) :
    beleq a (unionO b c) := by
  cases a with
  | none => trivial
  | some av =>
      cases c with
      | none => exact absurd h (by simp [beleq])
      | some cv =>
          cases b with
          | none => exact h
          | some bv =>
              obtain ⟨⟨h1, h2, h3⟩, ⟨h4, h5, h6⟩⟩ := h
              refine ⟨⟨?_, ?_, ?_⟩, ⟨?_, ?_, ?_⟩⟩ <;>
                simp only [boxUnion, vmin, vmax]
              · exact le_trans (min_le_right _ _) h1
              · exact le_trans (min_le_right _ _) h2
              · exact le_trans (min_le_right _ _) h3
              · exact le_trans h4 (le_max_right _ _)
              · exact le_trans h5 (le_max_right _ _)
              · exact le_trans h6 (le_max_right _ _)

theorem beleq_foldr_init (l : List (Option Box3)) (init : Option Box3) :
    beleq init (l.foldr unionO init) := by
  induction l with
  | nil => exact beleq_refl _
  | cons x xs ih => exact beleq_unionO_mono _ _ _ ih

theorem beleq_foldr_mem (l : List (Option Box3)) (init x : Option Box3)
    (hx : x ∈ l) : beleq x (l.foldr unionO init) := by
  induction l with
  | nil => cases hx
  | cons y ys ih =>
      rcases List.mem_cons.mp hx with rfl | hmem
      · exact beleq_unionO_left _ _
      · exact beleq_unionO_mono _ _ _ (ih hmem)

/-- C7: at every location of every hierarchy, `bound(path)` encloses the
object's bound and every child's bound transformed by that child's transform
into the parent's local space (hence their union). -/
theorem sceneBoundInvariant (root : Loc) (path : List String) (l : Loc)
    (h : locate root path = some l) :
    boundAt root path = some (boundOf l) ∧
    beleq (objectBound l) (boundOf l) ∧
    ∀ c ∈ Loc.childrenOf l,
      beleq (xformBoxO (Loc.xfOf c) (boundOf c)) (boundOf l) := by
  refine ⟨?_, ?_, ?_⟩
  · unfold boundAt
    rw [h]
    rfl
  · obtain ⟨n, t, obj, children⟩ := l
    rw [boundOf]
    exact beleq_foldr_init _ _
  · intro c hc
    obtain ⟨n, t, obj, children⟩ := l
    rw [boundOf]
    apply beleq_foldr_mem
    exact List.mem_map.mpr ⟨⟨c, hc⟩, List.mem_attach _ _, rfl⟩

/-- The plane payload of the Displays test: a unit plane from (-1/2,-1/2,0)
to (1/2,1/2,0). -/
def planeObj : GObj :=
  ⟨"MeshPrimitive", ⟨(-(1/2 : Rat), -(1/2 : Rat), 0), ((1/2 : Rat), (1/2 : Rat), 0)⟩⟩

/-- The "/plane" location: carries the plane payload and no children. -/
def planeLoc : Loc := Loc.mk "plane" idXform (some planeObj) []

/-- The scene produced by `Plane()` and passed through `Displays`: a root
with no payload and a single child named "plane". -/
def planeSceneRoot : Loc := Loc.mk "root" idXform none [planeLoc]

/-- Witness for C7 on the plane scene at path "/plane". -/
theorem sceneBoundInvariant_witness :
    boundAt planeSceneRoot ["plane"] = some (boundOf planeLoc) ∧
    beleq (objectBound planeLoc) (boundOf planeLoc) ∧
    ∀ c ∈ Loc.childrenOf planeLoc,
      beleq (xformBoxO (Loc.xfOf c) (boundOf c)) (boundOf planeLoc) :=
  sceneBoundInvariant planeSceneRoot ["plane"] planeLoc rfl

/-- C9: absence at the scene interface is signalled by None, not by an empty
collection: a location with no geometric payload answers `object(path)` with
None, a leaf location answers `childNames(path)` with None, and a returned
child-name list is never empty; concretely, in the pass-through Displays
scene, object("/") is None, childNames("/") is ["plane"], object("/plane")
is the plane payload and childNames("/plane") is None. -/
theorem absenceIsNone :
    (∀ root path l, locate root path = some l → Loc.objOf l = none →
       objectAt root path = some none) ∧
    (∀ root path l, locate root path = some l → Loc.childrenOf l = [] →
       childNamesAt root path = some none) ∧
    (∀ root path ns, childNamesAt root path = some (some ns) → ns ≠ []) ∧
    objectAt planeSceneRoot [] = some none ∧
    childNamesAt planeSceneRoot [] = some (some ["plane"]) ∧
    objectAt planeSceneRoot ["plane"] = some (some planeObj) ∧
    childNamesAt planeSceneRoot ["plane"] = some none := by
  refine ⟨?_, ?_, ?_, rfl, rfl, rfl, rfl⟩
  · intro root path l h hobj
    unfold objectAt
    rw [h, Option.map_some']
    rw [hobj]
  · intro root path l h hch
    unfold childNamesAt
    rw [h, Option.map_some']
    rw [hch]
    rfl
  · intro root path ns h hne
    unfold childNamesAt at h
    cases hloc : locate root path with
    | none => rw [hloc] at h; simp at h
    | some l =>
        rw [hloc, Option.map_some'] at h
        by_cases hemp : (Loc.childrenOf l).isEmpty
        · rw [if_pos hemp] at h
          simp at h
        · rw [if_neg hemp] at h
          simp only [Option.some.injEq] at h
          rw [← h] at hne
          rw [List.map_eq_nil_iff] at hne
          rw [hne] at hemp
          exact hemp rfl

/-- Witness for C9: the root of the plane scene has no payload and
object("/") is None; "/plane" is a leaf and childNames("/plane") is None. -/
theorem absenceIsNone_witness :
    objectAt planeSceneRoot [] = some none ∧
    childNamesAt planeSceneRoot ["plane"] = some none :=
  ⟨absenceIsNone.1 planeSceneRoot [] planeSceneRoot rfl rfl,
   absenceIsNone.2.1 planeSceneRoot ["plane"] planeLoc rfl rfl⟩

/-! ## Displays node and scene globals (spec section 4.2, DisplaysTest) -/

/-- Modelled from the spec: a render-output declaration — name, driver type,
data description and parameters (as name/value pairs; values modelled as
rationals). -/
structure Display where
  dname : String
  dtype : String
  ddata : String
  parameters : List (String × Rat)
deriving DecidableEq

/-- Modelled from the spec: appending one declaration to the globals —
a declaration of a name already present replaces it in place; otherwise it is
appended, discarding nothing. -/
def addDisplayTo (gs : List Display) (d : Display) : List Display :=
  if gs.any (fun g => g.dname == d.dname) then
    gs.map fun g => if g.dname == d.dname then d else g
  else
    gs ++ [d]

/-- Modelled from the spec: the globals computed by a `Displays` node — the
input's globals with the node's added declarations applied in the order they
were added. -/
def displaysGlobals (inputGlobals : List Display) (added : List Display) :
    List Display :=
  added.foldl addDisplayTo inputGlobals

/-- The first display of the test: beauty.exr with a parameter. -/
def beautyDisplay : Display := ⟨"beauty.exr", "exr", "rgba", [("test", 10)]⟩

/-- The second display of the test: diffuse.exr. -/
def diffuseDisplay : Display := ⟨"diffuse.exr", "exr", "color aov_diffuse", []⟩

theorem addDisplayTo_preserves (gs : List Display) (d g : Display)
    (hg : g ∈ gs) (hne : g.dname ≠ d.dname) : g ∈ addDisplayTo gs d := by
  unfold addDisplayTo
  by_cases hany : gs.any (fun x => x.dname == d.dname)
  · rw [if_pos hany]
    apply List.mem_map.mpr
    refine ⟨g, hg, ?_⟩
    rw [if_neg (by simpa using hne)]
  · rw [if_neg hany]
    exact List.mem_append_left _ hg

/-- C3: a `Displays` node accumulates globals additively — every declaration
already present in the input's globals survives adding a declaration of a
different name (through any sequence of additions), and after adding the two
displays of the test, globals() holds exactly both declarations, with their
parameters, in the order they were added. -/
theorem displaysGlobalsAdditive :
    (∀ gs d g, g ∈ gs → g.dname ≠ d.dname → g ∈ addDisplayTo gs d) ∧
    (∀ added gs g, g ∈ gs → (∀ d ∈ added, g.dname ≠ d.dname) →
       g ∈ displaysGlobals gs added) ∧
    displaysGlobals [] [beautyDisplay, diffuseDisplay] =
      [beautyDisplay, diffuseDisplay] := by
  refine ⟨addDisplayTo_preserves, ?_, by decide⟩
  intro added
  induction added with
  | nil => intro gs g hg _; exact hg
  | cons d rest ih =>
      intro gs g hg hnames
      unfold displaysGlobals
      rw [List.foldl_cons]
      exact ih (addDisplayTo gs d) g
        (addDisplayTo_preserves gs d g hg (hnames d (List.mem_cons_self d rest)))
        (fun x hx => hnames x (List.mem_cons_of_mem d hx))

/-- Witness for C3: a pre-existing declaration of a different name survives
adding both test displays, and the two-display globals are concrete. -/
theorem displaysGlobalsAdditive_witness :
    diffuseDisplay ∈ addDisplayTo [diffuseDisplay] beautyDisplay ∧
    diffuseDisplay ∈
      displaysGlobals [diffuseDisplay] [beautyDisplay] :=
  ⟨displaysGlobalsAdditive.1 [diffuseDisplay] beautyDisplay diffuseDisplay
      (by decide) (by decide),
   displaysGlobalsAdditive.2.1 [beautyDisplay] [diffuseDisplay] diffuseDisplay
      (by decide) (by decide)⟩

/-! ## Script serialisation of a Displays node (spec section 6, DisplaysTest) -/

/-- Modelled from the spec: the persistence capability — the serialised form
of a `Displays` node is script text replayed as a sequence of commands: an
`addDisplay` call per declaration followed by an `addParameter` call per
parameter (applying to the most recently added display, as in the test). -/
inductive SCommand where
  | addDisplay (nm ty da : String)
  | addParameter (key : String) (value : Rat)
deriving DecidableEq

/-- Serialising a `Displays` node (its list of added displays) to commands. -/
def serialiseNode (added : List Display) : List SCommand :=
  added.flatMap fun d =>
    SCommand.addDisplay d.dname d.dtype d.ddata ::
      d.parameters.map fun p => SCommand.addParameter p.1 p.2

/-- Applying a function to the last element of a list. -/
def updateLast (f : Display → Display) : List Display → List Display
  | [] => []
  | [d] => [f d]
  | d :: e :: rest => d :: updateLast f (e :: rest)

/-- Executing one serialised command against a node being rebuilt. -/
def applyCommand (added : List Display) : SCommand → List Display
  | .addDisplay nm ty da => added ++ [⟨nm, ty, da, []⟩]
  | .addParameter k v =>
      updateLast (fun d => { d with parameters := d.parameters ++ [(k, v)] })
        added

/-- Executing a serialised script into a fresh `Displays` node. -/
def executeScript (cmds : List SCommand) : List Display :=
  cmds.foldl applyCommand []

theorem updateLast_append (l : List Display) (x : Display)
    (f : Display → Display) : updateLast f (l ++ [x]) = l ++ [f x] := by
  induction l with
  | nil => rfl
  | cons a l ih =>
      cases l with
      | nil => rfl
      | cons b l2 =>
          show a :: updateLast f ((b :: l2) ++ [x]) = (a :: b :: l2) ++ [f x]
          rw [ih]
          rfl

theorem foldl_addParameters (acc : List Display) (nm ty da : String)
    (ps0 ps : List (String × Rat)) :
    (ps.map fun p => SCommand.addParameter p.1 p.2).foldl applyCommand
        (acc ++ [⟨nm, ty, da, ps0⟩]) =
      acc ++ [⟨nm, ty, da, ps0 ++ ps⟩] := by
  induction ps generalizing ps0 with
  | nil => rw [List.map_nil, List.foldl_nil, List.append_nil]
  | cons p rest ih =>
      rw [List.map_cons, List.foldl_cons]
      have hstep : applyCommand (acc ++ [⟨nm, ty, da, ps0⟩])
          (SCommand.addParameter p.1 p.2) =
          acc ++ [⟨nm, ty, da, ps0 ++ [p]⟩] := by
        rw [applyCommand, updateLast_append]
      rw [hstep, ih (ps0 ++ [p]), List.append_assoc]
      rfl

theorem executeScript_serialise_aux (added : List Display) :
    ∀ acc : List Display,
      (serialiseNode added).foldl applyCommand acc = acc ++ added := by
  induction added with
  | nil => intro acc; rw [serialiseNode, List.flatMap_nil, List.foldl_nil,
      List.append_nil]
  | cons d rest ih =>
      intro acc
      rw [serialiseNode, List.flatMap_cons, List.foldl_append]
      rw [List.foldl_cons]
      have hfirst : applyCommand acc (SCommand.addDisplay d.dname d.dtype d.ddata) =
          acc ++ [⟨d.dname, d.dtype, d.ddata, []⟩] := rfl
      rw [hfirst, foldl_addParameters acc d.dname d.dtype d.ddata [] d.parameters]
      rw [List.nil_append]
      have hrest := ih (acc ++ [d])
      rw [serialiseNode] at hrest
      rw [hrest, List.append_assoc]
      rfl

/-- C10: serialising a `Displays` node with any set of added display
declarations (including their parameters) and executing the serialisation
into a fresh script rebuilds the very same declarations, so the rebuilt
node's globals equal the original's. -/
theorem serialisationRoundTrip (added : List Display) :
    executeScript (serialiseNode added) = added ∧
    displaysGlobals [] (executeScript (serialiseNode added)) =
      displaysGlobals [] added := by
  have h : executeScript (serialiseNode added) = added := by
    rw [executeScript, executeScript_serialise_aux added [], List.nil_append]
  exact ⟨h, by rw [h]⟩

/-- Witness for C8 at a concrete channel and tile origin of the concrete
image. -/
theorem tileSizeSquared_witness :
    (channelData imgW "R" (0, 0)).length = tileSize ^ 2 ∧
      ∃ k, tileSize = 2 ^ k :=
  tileSizeSquared imgW "R" (0, 0)

/-- Witness for C10 on the serialisation test's node: one display with one
parameter survives the serialise/execute round trip. -/
theorem serialisationRoundTrip_witness :
    executeScript (serialiseNode [beautyDisplay]) = [beautyDisplay] ∧
    displaysGlobals [] (executeScript (serialiseNode [beautyDisplay])) =
      displaysGlobals [] [beautyDisplay] :=
  serialisationRoundTrip [beautyDisplay]
